import Mathlib

/-! Shallow embedding of `src/Week_1/assign_1_code.cpp`: a Catalan-number
dynamic programme modulo the prime 1000000007, together with the printing
driver `main`. Table values are C++ `long long` (signed 64-bit) integers,
modelled as unbounded `Int` with an explicit two's-complement wrap at the
64-bit boundary on every arithmetic operation; vector subscripts are
bounds-checked and produce an `Except` error when out of range, standing
for the undefined behaviour of `std::vector::operator[]`. -/

/-- `const int MODULO = 1000000007;` (line 5 of the source). -/
def MODULO : Int := 1000000007

/-- Failure conditions observable in the embedding: an out-of-range
`std::vector` subscript (undefined behaviour in C++), a failed or
absurdly-sized vector allocation, and the `InvalidArgument` condition the
specification discusses (the code never raises it: no branch of the
embedding produces it). -/
inductive CppError where
  | undefinedBehavior
  | allocationFailure
  | invalidArgument

deriving instance DecidableEq for CppError

deriving instance DecidableEq for Except

/-- Two's-complement wrap of an unbounded integer into the signed 64-bit
range `[-2^63, 2^63)`: the value a C++ `long long` holds after an
arithmetic operation whose mathematical result is `x`. -/
def wrap64 (x : Int) : Int := (x + 2 ^ 63) % 2 ^ 64 - 2 ^ 63

/-- `long long` multiplication: `catalan[k] * catalan[idx - k - 1]`
(line 12) is computed in 64-bit width. -/
def mulLL (a b : Int) : Int := wrap64 (a * b)

/-- `long long` addition (the accumulation on line 12). -/
def addLL (a b : Int) : Int := wrap64 (a + b)

/-- C++ `%` on `long long`: the remainder of truncated division (its
magnitude is below the divisor's, so no further wrap can occur). -/
def modLL (a b : Int) : Int := Int.tmod a b

/-- The three integer operations a run of the programme performs.
`llOps` (64-bit `long long` semantics) instantiates the embedding of the
source; `exactOps` (unbounded integer arithmetic) is the comparison point
used to state that no overflow ever occurs. -/
structure ArithOps where
  mul : Int → Int → Int
  add : Int → Int → Int
  mod : Int → Int → Int

/-- The arithmetic of the source programme: every operation is performed
in `long long` width. -/
def llOps : ArithOps := ⟨mulLL, addLL, modLL⟩

/-- Exact (unbounded) integer arithmetic, with the mathematical modulus. -/
def exactOps : ArithOps := ⟨fun a b => a * b, fun a b => a + b, fun a b => a % b⟩

/-- Bounds-checked read `catalan[i]`; out of range is undefined behaviour. -/
def vget (v : List Int) (i : Nat) : Except CppError Int :=
  match v[i]? with
  | some x => Except.ok x
  | none => Except.error CppError.undefinedBehavior

/-- Bounds-checked write `catalan[i] = x`; out of range is undefined
behaviour. -/
def vset (v : List Int) (i : Nat) (x : Int) : Except CppError (List Int) :=
  if i < v.length then Except.ok (v.set i x) else Except.error CppError.undefinedBehavior

/-- One execution of line 12 of the source,
`catalan[idx] = (catalan[idx] + (catalan[k] * catalan[idx - k - 1]) % MODULO) % MODULO;`,
for the given `idx` and `k`. -/
def innerBody (ops : ArithOps) (idx k : Nat) (v : List Int) : Except CppError (List Int) := do
  let a ← vget v idx
  let b ← vget v k
  let c ← vget v (idx - k - 1)
  vset v idx (ops.mod (ops.add a (ops.mod (ops.mul b c) MODULO)) MODULO)

/-- The inner loop `for (int k = 0; k < idx; ++k)` (lines 11–13). -/
def innerLoop (ops : ArithOps) (idx : Nat) (v : List Int) : Except CppError (List Int) :=
  (List.range idx).foldlM (fun w k => innerBody ops idx k w) v

/-- The body of `computeCatalan` after the vector of `size` zeroes has been
allocated: `catalan[0] = 1;` followed by the outer loop
`for (int idx = 1; idx <= limit; ++idx)`, which performs `iters`
iterations (`iters = limit` when `limit >= 0`, `0` otherwise). -/
def catalanCore (ops : ArithOps) (size iters : Nat) : Except CppError (List Int) := do
  let v := List.replicate size (0 : Int)
  let v ← vset v 0 1
  (List.range iters).foldlM (fun w i => innerLoop ops (i + 1) w) v

/-- `computeCatalan` (lines 7–16) on a non-negative `limit`: the vector has
`limit + 1` entries and the outer loop runs `limit` times. -/
def computeCatalan (limit : Nat) : Except CppError (List Int) :=
  catalanCore llOps (limit + 1) limit

/-- The same computation with exact unbounded arithmetic in place of the
64-bit operations; agreement with `computeCatalan` expresses that no
`long long` operation ever overflows. -/
def computeCatalanExact (limit : Nat) : Except CppError (List Int) :=
  catalanCore exactOps (limit + 1) limit

/-- `computeCatalan` on an arbitrary `int` argument, as the C++ function
accepts. `limit + 1` is converted to the unsigned size type of
`std::vector`: when `limit <= -2` the conversion yields an astronomically
large count and construction fails; when `limit = -1` the vector is empty
and `catalan[0] = 1` is an out-of-range write; the loop bounds degenerate
to zero iterations for negative `limit`. The function performs no
validation of its argument. -/
def computeCatalanCpp (limit : Int) : Except CppError (List Int) :=
  if limit + 1 < 0 then Except.error CppError.allocationFailure
  else catalanCore llOps (limit + 1).toNat limit.toNat

/-- The driver `main` (lines 18–27): computes `computeCatalan 100`, prints
`result[m]` followed by a space for `m = 1, ..., 100`, then a newline, and
returns `0`. The pair is (text written to standard output, exit status). -/
def mainOutput : Except CppError (String × Int) := do
  let result ← computeCatalan 100
  let line ← (List.range 100).foldlM (fun (s : String) m => do
      let x ← vget result (m + 1)
      pure (s ++ toString x ++ " ")) ""
  pure (line ++ "\n", (0 : Int))

/-- The value the inner loop deposits at index `prev.length` when the table
so far holds `prev`: the convolution `Σ_{k<n} prev[k] * prev[n-1-k]`, each
product reduced `mod MODULO` and the sum reduced again after every
accumulation (`n = prev.length`). -/
def nextCatalan (prev : List Int) : Int :=
  (List.range prev.length).foldl
    (fun acc k => (acc + (prev.getD k 0 * prev.getD (prev.length - 1 - k) 0) % MODULO) % MODULO) 0

/-- Extending a table by its next convolution value. -/
def catalanStep (prev : List Int) : List Int := prev ++ [nextCatalan prev]

/-- The table of Catalan numbers mod `MODULO` up to index `n`, built by the
recurrence the programme implements. -/
def catalanList : Nat → List Int
  | 0 => [1]
  | n + 1 => catalanStep (catalanList n)

/-- The range every stored `long long` value stays in: `[0, MODULO)`. -/
def inRange (x : Int) : Prop := 0 ≤ x ∧ x < MODULO

/-- Every element of the table lies in `[0, MODULO)`. -/
def allInRange (v : List Int) : Prop := ∀ x ∈ v, inRange x

/-- An arithmetic-operation triple that agrees with exact integer
arithmetic on the operands the programme actually feeds it. -/
def goodOps (ops : ArithOps) : Prop :=
  (∀ a b, inRange a → inRange b → ops.mul a b = a * b) ∧
  (∀ a b, inRange a → inRange b → ops.add a b = a + b) ∧
  (∀ a, 0 ≤ a → ops.mod a MODULO = a % MODULO)

/-- The table state after the outer loop has filled indices `0..i`:
the true prefix followed by untouched zeroes. -/
def tableState (limit i : Nat) : List Int :=
  catalanList i ++ List.replicate (limit - i) 0

/-- The exact text the driver sends to standard output: `result[m]`
followed by one space, for `m = 1, ..., 100` in order, then a newline. -/
def catalanLine : String :=
  ((catalanList 100).drop 1).foldl (fun s x => s ++ toString x ++ " ") "" ++ "\n"

theorem MODULO_pos : (0 : Int) < MODULO := by decide

theorem inRange_zero : inRange 0 := by constructor <;> decide

theorem inRange_emod (a : Int) : inRange (a % MODULO) :=
  ⟨Int.emod_nonneg a (by decide), Int.emod_lt_of_pos a MODULO_pos⟩

theorem wrap64_eq_self (x : Int) (h0 : 0 ≤ x) (h1 : x < 2 ^ 63) : wrap64 x = x := by
  have h : (x + 2 ^ 63) % 2 ^ 64 = x + 2 ^ 63 :=
    Int.emod_eq_of_lt (by omega) (by omega)
  simp only [wrap64, h]
  omega

theorem llOps_good : goodOps llOps := by
  have hM : MODULO = 1000000007 := rfl
  refine ⟨fun a b ha hb => ?_, fun a b ha hb => ?_, fun a ha => ?_⟩
  · show mulLL a b = a * b
    refine wrap64_eq_self _ (Int.mul_nonneg ha.1 hb.1) ?_
    have h1 : a * b ≤ (MODULO - 1) * (MODULO - 1) :=
      Int.mul_le_mul (by have := ha.2; omega) (by have := hb.2; omega) hb.1
        (by have := ha.1; omega)
    have h2 : (MODULO - 1) * (MODULO - 1) < 2 ^ 63 := by decide
    omega
  · show addLL a b = a + b
    refine wrap64_eq_self _ (Int.add_nonneg ha.1 hb.1) ?_
    have hM : (2 : Int) * MODULO < 2 ^ 63 := by decide
    have := ha.2; have := hb.2; omega
  · exact Int.tmod_eq_emod ha (by decide)

theorem exactOps_good : goodOps exactOps :=
  ⟨fun _ _ _ _ => rfl, fun _ _ _ _ => rfl, fun _ _ => rfl⟩

theorem allInRange_getD {v : List Int} (hv : allInRange v) (i : Nat) :
    inRange (v.getD i 0) := by
  rcases h : v[i]? with _ | x
  · simp [List.getD_eq_getElem?_getD, h, inRange_zero]
  · have hx : x ∈ v := List.getElem?_mem h
    simpa [List.getD_eq_getElem?_getD, h] using hv x hx

theorem vget_ok {v : List Int} {i : Nat} (h : i < v.length) :
    vget v i = Except.ok (v.getD i 0) := by
  simp [vget, List.getElem?_eq_getElem h, List.getD_eq_getElem?_getD]

theorem getD_set_self {v : List Int} {i : Nat} (h : i < v.length) (a : Int) :
    (v.set i a).getD i 0 = a := by
  simp [List.getD_eq_getElem?_getD, List.getElem?_set_self (by simpa using h)]

theorem getD_set_ne {v : List Int} {i j : Nat} (h : i ≠ j) (a : Int) :
    (v.set i a).getD j 0 = v.getD j 0 := by
  simp [List.getD_eq_getElem?_getD, List.getElem?_set_ne h]

theorem allInRange_set {v : List Int} (hv : allInRange v) {a : Int}
    (ha : inRange a) (i : Nat) : allInRange (v.set i a) := by
  intro x hx
  rcases List.mem_or_eq_of_mem_set hx with h | h
  · exact hv x h
  · exact h ▸ ha

/-- One inner-loop iteration, on an in-range table and in-bounds indices,
performs the exact modular update of line 12. -/
theorem innerBody_ok {ops : ArithOps} (hops : goodOps ops) {idx k : Nat}
    {v : List Int} (hv : allInRange v) (hidx : idx < v.length) (hk : k < idx) :
    innerBody ops idx k v =
      Except.ok (v.set idx
        ((v.getD idx 0 + (v.getD k 0 * v.getD (idx - k - 1) 0) % MODULO) % MODULO)) := by
  have hk' : k < v.length := Nat.lt_trans hk hidx
  have hik : idx - k - 1 < v.length := Nat.lt_of_le_of_lt (by omega) hidx
  have ha := allInRange_getD hv idx
  have hb := allInRange_getD hv k
  have hc := allInRange_getD hv (idx - k - 1)
  have hmul : ops.mul (v.getD k 0) (v.getD (idx - k - 1) 0) =
      v.getD k 0 * v.getD (idx - k - 1) 0 := hops.1 _ _ hb hc
  have hmod1 : ops.mod (v.getD k 0 * v.getD (idx - k - 1) 0) MODULO =
      (v.getD k 0 * v.getD (idx - k - 1) 0) % MODULO :=
    hops.2.2 _ (Int.mul_nonneg hb.1 hc.1)
  have hadd : ops.add (v.getD idx 0) ((v.getD k 0 * v.getD (idx - k - 1) 0) % MODULO) =
      v.getD idx 0 + (v.getD k 0 * v.getD (idx - k - 1) 0) % MODULO :=
    hops.2.1 _ _ ha (inRange_emod _)
  have hmod2 : ops.mod (v.getD idx 0 + (v.getD k 0 * v.getD (idx - k - 1) 0) % MODULO)
      MODULO = (v.getD idx 0 + (v.getD k 0 * v.getD (idx - k - 1) 0) % MODULO) % MODULO :=
    hops.2.2 _ (Int.add_nonneg ha.1 (Int.emod_nonneg _ (by decide)))
  simp only [innerBody, vget_ok hidx, vget_ok hk', vget_ok hik, bind, Except.bind,
    hmul, hmod1, hadd, hmod2, vset, hidx, if_pos]

theorem set_getD_self_eq {v : List Int} {i : Nat} (h : i < v.length) :
    v.set i (v.getD i 0) = v := by
  apply List.ext_getElem?
  intro j
  rcases eq_or_ne i j with rfl | hne
  · simp [List.getElem?_set_self (by simpa using h), List.getD_eq_getElem?_getD,
      List.getElem?_eq_getElem h]
  · simp [List.getElem?_set_ne hne]

/-- The inner loop, run over any list of in-bounds indices `k < idx`,
succeeds and amounts to a pure fold accumulating into position `idx`. -/
theorem foldlM_innerBody {ops : ArithOps} (hops : goodOps ops) (idx : Nat) :
    ∀ (l : List Nat) (v : List Int), allInRange v → idx < v.length →
      (∀ k ∈ l, k < idx) →
      l.foldlM (fun w k => innerBody ops idx k w) v =
        Except.ok (v.set idx (l.foldl
          (fun acc k => (acc + (v.getD k 0 * v.getD (idx - k - 1) 0) % MODULO) % MODULO)
          (v.getD idx 0)))
  | [], v, hv, hidx, _ => by
    rw [List.foldlM_nil, List.foldl_nil, set_getD_self_eq hidx]
    rfl
  | k :: l, v, hv, hidx, hl => by
    have hk : k < idx := hl k (List.mem_cons_self _ _)
    have hstep := innerBody_ok hops hv hidx hk
    have hs1r : inRange
        ((v.getD idx 0 + (v.getD k 0 * v.getD (idx - k - 1) 0) % MODULO) % MODULO) :=
      inRange_emod _
    have hrec := foldlM_innerBody hops idx l
      (v.set idx ((v.getD idx 0 + (v.getD k 0 * v.getD (idx - k - 1) 0) % MODULO) % MODULO))
      (allInRange_set hv hs1r idx) (by simpa using hidx)
      (fun j hj => hl j (List.mem_cons_of_mem _ hj))
    rw [List.foldlM_cons, hstep]
    show l.foldlM (fun w k => innerBody ops idx k w) _ = _
    rw [hrec, List.set_set, getD_set_self hidx, List.foldl_cons]
    have hext : ∀ s1 : Int, l.foldl
        (fun acc j => (acc + ((v.set idx ((v.getD idx 0 +
            (v.getD k 0 * v.getD (idx - k - 1) 0) % MODULO) % MODULO)).getD j 0 *
          (v.set idx ((v.getD idx 0 + (v.getD k 0 * v.getD (idx - k - 1) 0) % MODULO)
            % MODULO)).getD (idx - j - 1) 0) % MODULO) % MODULO) s1 =
      l.foldl
        (fun acc j => (acc + (v.getD j 0 * v.getD (idx - j - 1) 0) % MODULO) % MODULO)
        s1 := by
      intro s1
      refine List.foldl_ext _ _ _ ?_
      intro acc j hj
      have hjlt : j < idx := hl j (List.mem_cons_of_mem _ hj)
      rw [getD_set_ne (show idx ≠ j by omega), getD_set_ne (show idx ≠ idx - j - 1 by omega)]
    rw [hext]

theorem catalanList_length (n : Nat) : (catalanList n).length = n + 1 := by
  induction n with
  | zero => rfl
  | succ n ih => simp [catalanList, catalanStep, ih]

/-- Fold accumulating `f k` mod `MODULO` at each step equals the plain sum
reduced once. -/
theorem foldl_addmod_eq (f : Nat → Int) :
    ∀ (l : List Nat) (a : Int),
      l.foldl (fun acc k => (acc + f k) % MODULO) (a % MODULO) =
        (a + (l.map f).sum) % MODULO
  | [], a => by simp
  | k :: l, a => by
    rw [List.foldl_cons, Int.emod_add_emod, foldl_addmod_eq f l (a + f k)]
    simp [List.map_cons, List.sum_cons, Int.add_assoc]

/-- `nextCatalan` as a single reduced convolution sum. -/
theorem nextCatalan_eq_sum (prev : List Int) :
    nextCatalan prev =
      (((List.range prev.length).map
        (fun k => (prev.getD k 0 * prev.getD (prev.length - 1 - k) 0) % MODULO)).sum)
        % MODULO := by
  have h0 : (0 : Int) = 0 % MODULO := by decide
  rw [nextCatalan, h0, foldl_addmod_eq]
  simp

theorem nextCatalan_inRange (prev : List Int) : inRange (nextCatalan prev) := by
  rw [nextCatalan_eq_sum]
  exact inRange_emod _

theorem catalanList_inRange (n : Nat) : allInRange (catalanList n) := by
  induction n with
  | zero =>
    intro x hx
    simp [catalanList] at hx
    subst hx
    constructor <;> decide
  | succ n ih =>
    intro x hx
    simp only [catalanList, catalanStep, List.mem_append, List.mem_singleton] at hx
    rcases hx with h | h
    · exact ih x h
    · exact h ▸ nextCatalan_inRange _

/-- Setting the element just past a list prefix. -/
theorem set_append_len (l₁ : List Int) (x : Int) (t : List Int) (a : Int) :
    (l₁ ++ x :: t).set l₁.length a = l₁ ++ a :: t := by
  induction l₁ with
  | nil => rfl
  | cons y l ih => simp [List.set, ih]

theorem tableState_length (limit i : Nat) (h : i ≤ limit) :
    (tableState limit i).length = limit + 1 := by
  simp [tableState, catalanList_length]
  omega

theorem tableState_allInRange (limit i : Nat) : allInRange (tableState limit i) := by
  intro x hx
  simp only [tableState, List.mem_append] at hx
  rcases hx with h | h
  · exact catalanList_inRange i x h
  · rw [List.eq_of_mem_replicate h]
    exact inRange_zero

theorem tableState_getD_left (limit i k : Nat) (h : k ≤ i) :
    (tableState limit i).getD k 0 = (catalanList i).getD k 0 := by
  have hk : k < (catalanList i).length := by rw [catalanList_length]; omega
  simp [tableState, List.getD_eq_getElem?_getD, List.getElem?_append_left hk]

theorem tableState_getD_next (limit i : Nat) (h : i < limit) :
    (tableState limit i).getD (i + 1) 0 = 0 := by
  have hlen : (catalanList i).length = i + 1 := catalanList_length i
  have hrep : 0 < limit - i := by omega
  simp only [tableState, List.getD_eq_getElem?_getD]
  rw [List.getElem?_append_right (by omega), hlen]
  simp [List.getElem?_replicate, hrep]

theorem set_append_len' (l₁ : List Int) (x : Int) (t : List Int) (a : Int)
    (n : Nat) (hn : n = l₁.length) : (l₁ ++ x :: t).set n a = l₁ ++ a :: t :=
  hn ▸ set_append_len l₁ x t a

/-- Writing the next Catalan value just past the computed prefix advances
the invariant state. -/
theorem tableState_set_next (limit i : Nat) (h : i < limit) :
    (tableState limit i).set (i + 1) (nextCatalan (catalanList i)) =
      tableState limit (i + 1) := by
  have hlen : (catalanList i).length = i + 1 := catalanList_length i
  have h2 : limit - i = (limit - (i + 1)) + 1 := by omega
  show (catalanList i ++ List.replicate (limit - i) 0).set (i + 1) _ =
    catalanList (i + 1) ++ List.replicate (limit - (i + 1)) 0
  rw [h2, List.replicate_succ, set_append_len' _ _ _ _ _ hlen.symm]
  show _ = (catalanList i ++ [nextCatalan (catalanList i)]) ++ _
  rw [List.append_assoc]
  rfl

/-- One outer-loop iteration carries the invariant state one step forward. -/
theorem innerLoop_tableState {ops : ArithOps} (hops : goodOps ops)
    {limit i : Nat} (h : i < limit) :
    innerLoop ops (i + 1) (tableState limit i) = Except.ok (tableState limit (i + 1)) := by
  have hlen : (tableState limit i).length = limit + 1 := tableState_length limit i (by omega)
  have hidx : i + 1 < (tableState limit i).length := by omega
  rw [innerLoop, foldlM_innerBody hops (i + 1) (List.range (i + 1)) _
    (tableState_allInRange limit i) hidx (fun k hk => List.mem_range.mp hk)]
  congr 1
  have hfold :
      (List.range (i + 1)).foldl
        (fun acc k => (acc + ((tableState limit i).getD k 0 *
          (tableState limit i).getD (i + 1 - k - 1) 0) % MODULO) % MODULO)
        ((tableState limit i).getD (i + 1) 0) = nextCatalan (catalanList i) := by
    rw [tableState_getD_next limit i h]
    simp only [nextCatalan, catalanList_length]
    refine List.foldl_ext _ _ _ ?_
    intro acc k hk
    have hki : k ≤ i := by have := List.mem_range.mp hk; omega
    have hidx2 : i + 1 - k - 1 = i + 1 - 1 - k := by omega
    rw [tableState_getD_left limit i k hki, hidx2,
      tableState_getD_left limit i (i + 1 - 1 - k) (by omega)]
  rw [hfold]
  exact tableState_set_next limit i h

/-- The outer loop, from any intermediate state to the end state. -/
theorem outerLoop_tableState {ops : ArithOps} (hops : goodOps ops) (limit : Nat) :
    ∀ (j i : Nat), i + j ≤ limit →
      (List.range' i j).foldlM (fun w t => innerLoop ops (t + 1) w) (tableState limit i) =
        Except.ok (tableState limit (i + j))
  | 0, i, _ => by simp [List.foldlM_nil]; rfl
  | j + 1, i, hij => by
    rw [List.range'_succ, List.foldlM_cons, innerLoop_tableState hops (by omega)]
    show (List.range' (i + 1) j).foldlM _ (tableState limit (i + 1)) = _
    rw [outerLoop_tableState hops limit j (i + 1) (by omega)]
    congr 2
    omega

theorem exceptBind_ok {α β : Type} (a : α) (f : α → Except CppError β) :
    (Except.ok a >>= f) = f a := rfl

/-- `computeCatalan`, with any faithful arithmetic, returns exactly the
table `catalanList limit`. -/
theorem catalanCore_spec {ops : ArithOps} (hops : goodOps ops) (limit : Nat) :
    catalanCore ops (limit + 1) limit = Except.ok (catalanList limit) := by
  have hset : vset (List.replicate (limit + 1) (0 : Int)) 0 1 =
      Except.ok (tableState limit 0) := by
    simp only [vset, List.length_replicate]
    rw [if_pos (Nat.succ_pos limit)]
    rfl
  simp only [catalanCore]
  rw [hset, exceptBind_ok, List.range_eq_range',
    outerLoop_tableState hops limit limit 0 (by omega)]
  have h0 : 0 + limit = limit := by omega
  rw [h0]
  congr 1
  simp [tableState]

theorem computeCatalan_eq (limit : Nat) :
    computeCatalan limit = Except.ok (catalanList limit) :=
  catalanCore_spec llOps_good limit

theorem computeCatalanExact_eq (limit : Nat) :
    computeCatalanExact limit = Except.ok (catalanList limit) :=
  catalanCore_spec exactOps_good limit

theorem take_append_le (l₂ : List Int) :
    ∀ (l₁ : List Int) (n : Nat), n ≤ l₁.length → (l₁ ++ l₂).take n = l₁.take n
  | _, 0, _ => by simp
  | a :: l, n + 1, h => by
    simp only [List.cons_append, List.take_succ_cons]
    rw [take_append_le l₂ l n (by simpa using h)]
  | [], n + 1, h => by simp at h

/-- The table for a smaller bound is the prefix of the table for a larger
bound. -/
theorem catalanList_take (n : Nat) :
    ∀ m, n ≤ m → catalanList n = (catalanList m).take (n + 1)
  | m, h => by
    rcases Nat.lt_or_ge n m with hlt | hge
    · obtain ⟨m', rfl⟩ : ∃ m', m = m' + 1 := ⟨m - 1, by omega⟩
      rw [show catalanList (m' + 1) = catalanList m' ++ [nextCatalan (catalanList m')]
          from rfl,
        take_append_le _ _ _ (by rw [catalanList_length]; omega)]
      exact catalanList_take n m' (by omega)
    · have hnm : n = m := by omega
      subst hnm
      rw [List.take_of_length_le (by rw [catalanList_length])]

theorem catalanList_getD_mono (n m k : Nat) (hnm : n ≤ m) (hk : k ≤ n) :
    (catalanList m).getD k 0 = (catalanList n).getD k 0 := by
  rw [catalanList_take n m hnm]
  simp only [List.getD_eq_getElem?_getD]
  rw [List.getElem?_take_of_lt (by omega)]

/-- Entry `j + 1` of any large-enough table is the convolution of the
previous entries. -/
theorem catalanList_getD_succ (limit j : Nat) (h : j + 1 ≤ limit) :
    (catalanList limit).getD (j + 1) 0 = nextCatalan (catalanList j) := by
  rw [catalanList_getD_mono (j + 1) limit (j + 1) h (by omega)]
  show (catalanList j ++ [nextCatalan (catalanList j)]).getD (j + 1) 0 = _
  rw [List.getD_eq_getElem?_getD,
    show j + 1 = (catalanList j).length from (catalanList_length j).symm,
    List.getElem?_concat_length]
  rfl

theorem catalanList_getD_zero (n : Nat) : (catalanList n).getD 0 0 = 1 := by
  rw [catalanList_getD_mono 0 n 0 (Nat.zero_le n) (Nat.le_refl 0)]
  rfl

/-- The recurrence, phrased over the final table, as a single reduced sum of
reduced products. -/
theorem catalanList_recurrence (limit idx : Nat) (h1 : 1 ≤ idx) (h2 : idx ≤ limit) :
    (catalanList limit).getD idx 0 =
      ((List.range idx).map
        (fun k => ((catalanList limit).getD k 0 * (catalanList limit).getD (idx - 1 - k) 0)
          % MODULO)).sum % MODULO := by
  obtain ⟨j, rfl⟩ : ∃ j, idx = j + 1 := ⟨idx - 1, by omega⟩
  rw [catalanList_getD_succ limit j h2, nextCatalan_eq_sum, catalanList_length]
  refine congrArg (fun t => t % MODULO) (congrArg List.sum (List.map_congr_left ?_))
  intro k hk
  have hkj : k ≤ j := by have := List.mem_range.mp hk; omega
  rw [catalanList_getD_mono j limit k (by omega) hkj,
    catalanList_getD_mono j limit (j + 1 - 1 - k) (by omega) (by omega)]

theorem mul_lt_two63 {a b : Int} (ha0 : 0 ≤ a) (ha1 : a < MODULO) (hb0 : 0 ≤ b)
    (hb1 : b < MODULO) : a * b < 2 ^ 63 := by
  have h1 : a * b ≤ (MODULO - 1) * (MODULO - 1) :=
    Int.mul_le_mul (by omega) (by omega) hb0 (by omega)
  have h2 : (MODULO - 1) * (MODULO - 1) < 2 ^ 63 := by decide
  omega

theorem exceptPure_bind {α β : Type} (a : α) (f : α → Except CppError β) :
    ((pure a : Except CppError α) >>= f) = f a := rfl

theorem getD_eq_getElem_of_lt {v : List Int} {i : Nat} (h : i < v.length) :
    v.getD i 0 = v[i] := by
  simp [List.getD_eq_getElem?_getD, List.getElem?_eq_getElem h]

/-- The driver's printing loop over a long-enough table never goes out of
bounds and appends exactly one rendered value and one space per index. -/
theorem printFold (v : List Int) :
    ∀ (j i : Nat) (s : String), i + j < v.length →
      (List.range' i j).foldlM (fun (s : String) m => do
          let x ← vget v (m + 1)
          pure (s ++ toString x ++ " ")) s =
        Except.ok (((v.drop (i + 1)).take j).foldl (fun s x => s ++ toString x ++ " ") s)
  | 0, i, s, _ => rfl
  | j + 1, i, s, h => by
    have hi1 : i + 1 < v.length := by omega
    simp only [List.range'_succ, List.foldlM_cons]
    rw [vget_ok hi1, exceptBind_ok, exceptPure_bind,
      printFold v j (i + 1) (s ++ toString (v.getD (i + 1) 0) ++ " ") (by omega),
      List.drop_eq_getElem_cons hi1, List.take_succ_cons, List.foldl_cons,
      getD_eq_getElem_of_lt hi1]

/-- For a non-negative argument the C++ entry point computes the table. -/
theorem computeCatalanCpp_nonneg (limit : Int) (h : 0 ≤ limit) :
    computeCatalanCpp limit = Except.ok (catalanList limit.toNat) := by
  simp only [computeCatalanCpp]
  rw [if_neg (by omega)]
  have h1 : (limit + 1).toNat = limit.toNat + 1 := by omega
  rw [h1]
  exact catalanCore_spec llOps_good limit.toNat

/-- C1: for every `limit ≥ 0`, `generate(limit)` returns an ordered sequence
of length `limit + 1` whose element `0` is `1` and whose element `idx`, for
`1 ≤ idx ≤ limit`, is the sum over `k ∈ [0, idx-1]` of
`result[k] * result[idx-1-k] mod 1000000007`, the sum itself reduced
`mod 1000000007`; in particular `generate(0) = [1]`. -/
theorem catalan_generate_contract (limit : Nat) :
    ∃ l, computeCatalan limit = Except.ok l ∧
      l.length = limit + 1 ∧
      l.getD 0 0 = 1 ∧
      (∀ idx, 1 ≤ idx → idx ≤ limit →
        l.getD idx 0 =
          ((List.range idx).map
            (fun k => (l.getD k 0 * l.getD (idx - 1 - k) 0) % MODULO)).sum % MODULO) ∧
      computeCatalan 0 = Except.ok [1] := by
  refine ⟨catalanList limit, computeCatalan_eq limit, catalanList_length limit,
    catalanList_getD_zero limit, ?_, computeCatalan_eq 0⟩
  intro idx hidx1 hidx2
  exact catalanList_recurrence limit idx hidx1 hidx2

theorem catalan_generate_contract_witness :
    ∃ l, computeCatalan 3 = Except.ok l ∧
      l.getD 3 0 =
        ((List.range 3).map
          (fun k => (l.getD k 0 * l.getD (3 - 1 - k) 0) % MODULO)).sum % MODULO := by
  obtain ⟨l, hl, _, _, hrec, _⟩ := catalan_generate_contract 3
  exact ⟨l, hl, hrec 3 (by omega) (by omega)⟩

/-- C2: every element of the sequence returned by `generate(limit)` is
non-negative and strictly below the prime modulus 1000000007. -/
theorem catalan_values_in_range (limit : Nat) :
    ∃ l, computeCatalan limit = Except.ok l ∧ ∀ x ∈ l, 0 ≤ x ∧ x < MODULO :=
  ⟨catalanList limit, computeCatalan_eq limit,
    fun x hx => catalanList_inRange limit x hx⟩

theorem catalan_values_in_range_witness : (0 : Int) ≤ 2 ∧ (2 : Int) < MODULO := by
  obtain ⟨l, hl, hall⟩ := catalan_values_in_range 2
  have hconc : computeCatalan 2 = Except.ok [1, 1, 2] := by decide
  rw [hconc] at hl
  injection hl with h
  exact hall 2 (by rw [← h]; decide)

/-- C3: running the programme with 64-bit `long long` arithmetic gives the
same result as exact unbounded arithmetic (no operation ever overflows):
the modulus fits in 30 bits, a `long long` offers 63 value bits
(more than double), the product of any two values below the modulus is
below `2^63` and the 64-bit multiplication computes it exactly, and every
stored value stays within `[0, MODULO)` because reduction follows every
multiplication and every accumulation. -/
theorem catalan_no_overflow (limit : Nat) :
    computeCatalan limit = computeCatalanExact limit ∧
    MODULO < 2 ^ 30 ∧
    (∀ a b : Int, 0 ≤ a → a < MODULO → 0 ≤ b → b < MODULO →
      mulLL a b = a * b ∧ addLL a b = a + b ∧ a * b < 2 ^ 63) ∧
    (∃ l, computeCatalan limit = Except.ok l ∧ ∀ x ∈ l, 0 ≤ x ∧ x < MODULO) := by
  refine ⟨(computeCatalan_eq limit).trans (computeCatalanExact_eq limit).symm,
    by decide, ?_,
    catalanList limit, computeCatalan_eq limit,
    fun x hx => catalanList_inRange limit x hx⟩
  intro a b ha0 ha1 hb0 hb1
  exact ⟨llOps_good.1 a b ⟨ha0, ha1⟩ ⟨hb0, hb1⟩,
    llOps_good.2.1 a b ⟨ha0, ha1⟩ ⟨hb0, hb1⟩,
    mul_lt_two63 ha0 ha1 hb0 hb1⟩

theorem catalan_no_overflow_witness :
    mulLL 1000000006 1000000006 = 1000000006 * 1000000006 ∧
    addLL 1000000006 1000000006 = 1000000006 + 1000000006 ∧
    (1000000006 : Int) * 1000000006 < 2 ^ 63 :=
  (catalan_no_overflow 0).2.2.1 1000000006 1000000006
    (by decide) (by decide) (by decide) (by decide)

/-- C4: the generator produces the known literal prefixes for limits 0–4. -/
theorem catalan_literal_values :
    computeCatalan 0 = Except.ok [1] ∧
    computeCatalan 1 = Except.ok [1, 1] ∧
    computeCatalan 2 = Except.ok [1, 1, 2] ∧
    computeCatalan 3 = Except.ok [1, 1, 2, 5] ∧
    computeCatalan 4 = Except.ok [1, 1, 2, 5, 14] := by decide

/-- C5: for `n ≤ m`, the sequence `generate(n)` is exactly `generate(m)`
truncated to its first `n + 1` entries — the computed values do not depend
on the chosen upper bound. -/
theorem catalan_prefix_stable (n m : Nat) (hnm : n ≤ m) (ln lm : List Int)
    (hn : computeCatalan n = Except.ok ln) (hm : computeCatalan m = Except.ok lm) :
    ln = lm.take (n + 1) := by
  rw [computeCatalan_eq] at hn hm
  injection hn with hn
  injection hm with hm
  rw [← hn, ← hm]
  exact catalanList_take n m hnm

theorem catalan_prefix_stable_witness :
    ([1, 1, 2] : List Int) = ([1, 1, 2, 5, 14] : List Int).take 3 :=
  catalan_prefix_stable 2 4 (by omega) [1, 1, 2] [1, 1, 2, 5, 14]
    (by decide) (by decide)

/-- C8: the generator is a pure, deterministic function of its argument:
any two runs at the same limit (in particular two calls at 100) return
identical sequences; the embedding has no state to vary between calls. -/
theorem generate_deterministic :
    (∀ limit : Nat, computeCatalan limit = computeCatalan limit) ∧
    (∀ l₁ l₂ : List Int, computeCatalan 100 = Except.ok l₁ →
      computeCatalan 100 = Except.ok l₂ → l₁ = l₂) := by
  refine ⟨fun _ => rfl, fun l₁ l₂ h1 h2 => ?_⟩
  exact Except.ok.inj (h1.symm.trans h2)

theorem generate_deterministic_witness : catalanList 100 = catalanList 100 :=
  generate_deterministic.2 (catalanList 100) (catalanList 100)
    (computeCatalan_eq 100) (computeCatalan_eq 100)

/-- C9: the computation terminates for every `limit ≥ 0`, producing the
full `limit + 1`-element sequence in one pass; the embedded loops are
folds over the bounded ranges `[0, limit)` and `[0, idx)` and are total. -/
theorem generate_terminates (limit : Nat) :
    ∃ l, computeCatalan limit = Except.ok l ∧ l.length = limit + 1 :=
  ⟨catalanList limit, computeCatalan_eq limit, catalanList_length limit⟩

/-- C10: no table access during `generate(limit)` is out of bounds: the
computation never reaches the embedding's out-of-range branch (which would
poison the whole run with an error), and each inner-loop pass from the
invariant state succeeds. -/
theorem table_accesses_in_bounds (limit : Nat) :
    (∃ l, computeCatalan limit = Except.ok l) ∧
    (∀ i, i < limit →
      ∃ w, innerLoop llOps (i + 1) (tableState limit i) = Except.ok w) := by
  refine ⟨⟨catalanList limit, computeCatalan_eq limit⟩, fun i hi => ?_⟩
  exact ⟨tableState limit (i + 1), innerLoop_tableState llOps_good hi⟩

theorem table_accesses_in_bounds_witness :
    ∃ w, innerLoop llOps 2 (tableState 2 1) = Except.ok w :=
  (table_accesses_in_bounds 2).2 1 (by omega)

/-- C7 counterexample: a negative limit does not fail with an
`InvalidArgument` condition — the code performs no validation; at
`limit = -1` it reaches undefined behaviour (the out-of-range write
`catalan[0] = 1` on an empty vector). -/
theorem negative_limit_not_invalid_argument :
    computeCatalanCpp (-1) = Except.error CppError.undefinedBehavior ∧
    decide (computeCatalanCpp (-1) = Except.error CppError.invalidArgument) = false := by
  constructor
  · decide
  · decide

/-- C7 (amended): the reference performs no validation of a negative
limit: `generate(-1)` reaches undefined behaviour (an out-of-range write to
element 0 of an empty table) rather than an `InvalidArgument` condition;
no run, at any argument, ever produces an `InvalidArgument` condition;
under `limit ≥ 0` there are no failure modes. -/
theorem negative_limit_behavior :
    computeCatalanCpp (-1) = Except.error CppError.undefinedBehavior ∧
    (∀ limit : Int, 0 ≤ limit → ∃ l, computeCatalanCpp limit = Except.ok l) ∧
    (∀ limit : Int,
      decide (computeCatalanCpp limit = Except.error CppError.invalidArgument) = false) := by
  refine ⟨by decide,
    fun limit h => ⟨catalanList limit.toNat, computeCatalanCpp_nonneg limit h⟩, ?_⟩
  intro limit
  apply decide_eq_false
  intro hcontra
  rcases Int.lt_or_le limit 0 with hneg | hpos
  · rcases eq_or_ne limit (-1) with rfl | hne
    · rw [show computeCatalanCpp (-1) = Except.error CppError.undefinedBehavior
          from by decide] at hcontra
      simp at hcontra
    · have hlt : limit + 1 < 0 := by omega
      simp only [computeCatalanCpp] at hcontra
      rw [if_pos hlt] at hcontra
      simp at hcontra
  · rw [computeCatalanCpp_nonneg limit hpos] at hcontra
    simp at hcontra

theorem negative_limit_behavior_witness :
    ∃ l, computeCatalanCpp 5 = Except.ok l :=
  negative_limit_behavior.2.1 5 (by decide)

theorem digitChar_no_newline (n : Nat) : Nat.digitChar n ≠ '\n' := by
  match n with
  | 0 | 1 | 2 | 3 | 4 | 5 | 6 | 7 | 8 | 9 | 10 | 11 | 12 | 13 | 14 | 15 => decide
  | m + 16 =>
    show Nat.digitChar (m + 16) ≠ '\n'
    unfold Nat.digitChar
    iterate 16 rw [if_neg (by omega)]
    decide

theorem toDigitsCore_no_newline :
    ∀ (fuel n : Nat) (ds : List Char), (∀ c ∈ ds, c ≠ '\n') →
      ∀ c ∈ Nat.toDigitsCore 10 fuel n ds, c ≠ '\n'
  | 0, n, ds, hds => by simpa [Nat.toDigitsCore] using hds
  | fuel + 1, n, ds, hds => by
    simp only [Nat.toDigitsCore]
    split
    · intro c hc
      rcases List.mem_cons.mp hc with rfl | hc2
      · exact digitChar_no_newline _
      · exact hds c hc2
    · refine toDigitsCore_no_newline fuel (n / 10) _ ?_
      intro c hc
      rcases List.mem_cons.mp hc with rfl | hc2
      · exact digitChar_no_newline _
      · exact hds c hc2

theorem natRepr_no_newline (n : Nat) : ∀ c ∈ (Nat.repr n).data, c ≠ '\n' :=
  fun c hc =>
    toDigitsCore_no_newline (n + 1) n [] (fun _ h => absurd h (List.not_mem_nil _)) c hc

/-- The decimal rendering of an integer never contains a newline. -/
theorem toString_int_no_newline (x : Int) : ∀ c ∈ (toString x).data, c ≠ '\n' := by
  cases x with
  | ofNat m => exact natRepr_no_newline m
  | negSucc m =>
    intro c hc
    have hc2 : c ∈ '-' :: (Nat.repr (m + 1)).data := hc
    rcases List.mem_cons.mp hc2 with rfl | hc3
    · decide
    · exact natRepr_no_newline (m + 1) c hc3

/-- The printing fold only ever appends digit characters, minus signs and
spaces: it never emits a newline. -/
theorem printFold_no_newline :
    ∀ (l : List Int) (s : String), (∀ c ∈ s.data, c ≠ '\n') →
      ∀ c ∈ (l.foldl (fun s x => s ++ toString x ++ " ") s).data, c ≠ '\n'
  | [], s, hs => by simpa using hs
  | x :: l, s, hs => by
    rw [List.foldl_cons]
    refine printFold_no_newline l _ ?_
    intro c hc
    rw [String.data_append, String.data_append] at hc
    rcases List.mem_append.mp hc with hc1 | hc2
    · rcases List.mem_append.mp hc1 with h | h
      · exact hs c h
      · exact toString_int_no_newline x c h
    · have hsp : (" " : String).data = [' '] := rfl
      rw [hsp] at hc2
      rcases List.mem_cons.mp hc2 with rfl | h
      · decide
      · exact absurd h (List.not_mem_nil c)

/-- The printing fold over a non-empty list ends in a space. -/
theorem printFold_ends_space :
    ∀ (l : List Int) (s : String), l ≠ [] →
      ∃ t : String, l.foldl (fun s x => s ++ toString x ++ " ") s = t ++ " "
  | [], _, h => absurd rfl h
  | x :: l, s, _ => by
    rw [List.foldl_cons]
    rcases eq_or_ne l [] with rfl | hne
    · exact ⟨s ++ toString x, rfl⟩
    · exact printFold_ends_space l _ hne

/-- Appending text to the seed of the printing fold factors out. -/
theorem foldl_print_shift :
    ∀ (l : List Int) (s : String),
      l.foldl (fun s x => s ++ toString x ++ " ") s =
        s ++ l.foldl (fun s x => s ++ toString x ++ " ") ""
  | [], s => by simp
  | x :: l, s => by
    rw [List.foldl_cons, List.foldl_cons,
      foldl_print_shift l (s ++ toString x ++ " "),
      foldl_print_shift l ("" ++ toString x ++ " ")]
    simp [String.append_assoc]

/-- The printed line starts with the renderings of `result[1..10]` followed
by the renderings of the remaining ninety values, then the newline. -/
theorem catalanLine_split :
    catalanLine =
      ("1 2 5 14 42 132 429 1430 4862 16796 " ++
        ((catalanList 100).drop 11).foldl (fun s x => s ++ toString x ++ " ") "") ++ "\n" := by
  have h10 : catalanList 10 = (catalanList 100).take 11 := catalanList_take 10 100 (by omega)
  have hsplit : (catalanList 100).drop 1 =
      ((catalanList 10).drop 1) ++ ((catalanList 100).drop 11) := by
    conv_lhs => rw [← List.take_append_drop 11 (catalanList 100)]
    rw [List.drop_append_of_le_length (by rw [List.length_take, catalanList_length]; omega),
      ← h10]
  have hA : ((catalanList 10).drop 1).foldl (fun s x => s ++ toString x ++ " ") "" =
      "1 2 5 14 42 132 429 1430 4862 16796 " := by decide
  show ((catalanList 100).drop 1).foldl (fun s x => s ++ toString x ++ " ") "" ++ "\n" = _
  rw [hsplit, List.foldl_append, hA,
    foldl_print_shift ((catalanList 100).drop 11) "1 2 5 14 42 132 429 1430 4862 16796 "]

/-- C6: run with no arguments, the programme writes exactly one line to
standard output — the values `result[1]` through `result[100]` in base 10,
each followed by a single space (so the line ends in a space), then a
newline — a line of 100 integers beginning
`1 2 5 14 42 132 429 1430 4862 16796` — and exits with status 0. -/
theorem main_output_spec :
    mainOutput = Except.ok (catalanLine, 0) ∧
    catalanLine.data.take ("1 2 5 14 42 132 429 1430 4862 16796 ".data.length) =
      "1 2 5 14 42 132 429 1430 4862 16796 ".data ∧
    catalanLine.data.drop (catalanLine.data.length - 2) = " \n".data ∧
    catalanLine.data.count '\n' = 1 ∧
    ((catalanList 100).drop 1).length = 100 := by
  have hlen : ((catalanList 100).drop 1).length = 100 := by
    rw [List.length_drop, catalanList_length]
  refine ⟨?_, ?_, ?_, ?_, hlen⟩
  · simp only [mainOutput]
    rw [computeCatalan_eq 100, exceptBind_ok, List.range_eq_range',
      printFold (catalanList 100) 100 0 "" (by rw [catalanList_length]; omega),
      exceptBind_ok,
      List.take_of_length_le (by rw [List.length_drop, catalanList_length])]
    rfl
  · rw [catalanLine_split, String.data_append, String.data_append, List.append_assoc]
    exact List.take_left' rfl
  · obtain ⟨t, ht⟩ := printFold_ends_space ((catalanList 100).drop 1) ""
      (fun hnil => by rw [hnil] at hlen; exact absurd hlen (by decide))
    have hline2 : catalanLine = (t ++ " ") ++ "\n" := by
      show ((catalanList 100).drop 1).foldl (fun s x => s ++ toString x ++ " ") "" ++ "\n" = _
      rw [ht]
    have hsp : (" " : String).data = [' '] := rfl
    have hnl : ("\n" : String).data = ['\n'] := rfl
    have hsnl : (" \n" : String).data = [' ', '\n'] := rfl
    rw [hline2, String.data_append, String.data_append, hsp, hnl, hsnl, List.append_assoc,
      show ([' '] ++ ['\n'] : List Char) =
        [' ', '\n'] from rfl,
      show (t.data ++ [' ', '\n']).length - 2 = t.data.length by
        simp [List.length_append]]
    exact List.drop_left _ _
  · have hF := printFold_no_newline ((catalanList 100).drop 1) ""
      (fun c hc => absurd hc (List.not_mem_nil c))
    have hnl : ("\n" : String).data = ['\n'] := rfl
    have h0 : (((catalanList 100).drop 1).foldl
        (fun s x => s ++ toString x ++ " ") "").data.count '\n' = 0 :=
      List.count_eq_zero.mpr (fun hmem => (hF ('\n') hmem) rfl)
    show ((((catalanList 100).drop 1).foldl
        (fun s x => s ++ toString x ++ " ") "") ++ "\n").data.count '\n' = 1
    rw [String.data_append, List.count_append, h0, hnl]
    decide
